import Mathlib

/-!
Verification development for the Gamera morphology plugin layer
(src/gamera/plugins/morphology.py) and the numarray interchange tables
(src/gamera/plugins/numarray_io.py).

The Python files under src/ are declarative plugin metadata: pixel-type
allow-lists, argument ranges and defaults, and the numarray typecode
tables.  Those declarations are embedded below exactly as the source
states them.  The neighborhood-filtering engine itself lives in native
code that is not part of src/, so it is modelled from the specification
(definitions marked with a comment beginning with the words Modelled
from the spec), with the edge-clamping border policy, rectangular and
octagonal structuring elements at radius 1, and reducers min, max,
k-th order statistic and mean.
-/

/-- Gamera pixel type tags, as used by the plugin declarations
(ONEBIT, GREYSCALE, GREY16, RGB, FLOAT, COMPLEX). -/
inductive PixelType
  | onebit
  | greyscale
  | grey16
  | rgb
  | float
  | complex
deriving DecidableEq, Repr

/-- Allowed pixel types of erode, from morphology.py:
self_type = ImageType([ONEBIT, GREYSCALE, FLOAT]). -/
def erode_self_type : List PixelType :=
  [PixelType.onebit, PixelType.greyscale, PixelType.float]

/-- Allowed pixel types of dilate, from morphology.py. -/
def dilate_self_type : List PixelType :=
  [PixelType.onebit, PixelType.greyscale, PixelType.float]

/-- Allowed pixel types of erode_dilate, from morphology.py. -/
def erode_dilate_self_type : List PixelType :=
  [PixelType.onebit, PixelType.greyscale, PixelType.float]

/-- Allowed pixel types of rank, from morphology.py:
self_type = ImageType([ONEBIT, GREYSCALE, FLOAT]).  Note that ONEBIT
is in the list. -/
def rank_self_type : List PixelType :=
  [PixelType.onebit, PixelType.greyscale, PixelType.float]

/-- Allowed pixel types of mean, from morphology.py:
self_type = ImageType([GREYSCALE, FLOAT]). -/
def mean_self_type : List PixelType :=
  [PixelType.greyscale, PixelType.float]

/-- Declared range of the rank argument of rank, from morphology.py:
Int(range=(1, 9)). -/
def rank_range : Int × Int := (1, 9)

/-- Declared range of the iteration-count argument of erode_dilate,
from morphology.py: Int(range=(0, 10), default=1). -/
def erode_dilate_count_range : Int × Int := (0, 10)

/-- Declared default of the iteration-count argument of erode_dilate,
from morphology.py. -/
def erode_dilate_count_default : Int := 1

/-- Direction choices of erode_dilate, from morphology.py. -/
inductive Direction
  | dilate
  | erode
deriving DecidableEq, Repr

/-- Window-shape choices of erode_dilate, from morphology.py. -/
inductive Shape
  | rectangular
  | octagonal
deriving DecidableEq, Repr

/-- Error kinds of the driver, from the specification section 7. -/
inductive GErr
  | invalidArgument
  | unsupportedPixelType
deriving DecidableEq, Repr

/-- Modelled from the spec: an Image is a rows-by-cols grid of pixels.
Pixel values are rationals, which embed the Bilevel values 0 and 1, the
bounded unsigned Greyscale range and (exactly representable) Float
values; only coordinates inside the grid are meaningful. -/
structure Image where
  rows : Nat
  cols : Nat
  px : Nat → Nat → ℚ

/-- Pixelwise equality of two images: same dimensions and equal values
at every in-range coordinate. -/
def PixEq (a b : Image) : Prop :=
  a.rows = b.rows ∧ a.cols = b.cols ∧
    ∀ r, r < a.rows → ∀ c, c < a.cols → a.px r c = b.px r c

/-- An image is Bilevel when every in-range pixel is 0 or 1. -/
def IsBilevel (img : Image) : Prop :=
  ∀ r, r < img.rows → ∀ c, c < img.cols → img.px r c = 0 ∨ img.px r c = 1

/-- Modelled from the spec: clamp an integer coordinate into [0, n). -/
def clampIdx (n : Nat) (i : Int) : Nat :=
  (min (max i 0) ((n : Int) - 1)).toNat

/-- Modelled from the spec: the edge-clamping BorderPolicy, the pure
function used whenever a coordinate falls outside the grid. -/
def borderClamp (img : Image) (r c : Int) : ℚ :=
  img.px (clampIdx img.rows r) (clampIdx img.cols c)

/-- Modelled from the spec: the list of integers from minus radius to
radius, the axis of a square window. -/
def intRange (radius : Nat) : List Int :=
  (List.range (2 * radius + 1)).map (fun i : Nat => (i : Int) - (radius : Int))

/-- Modelled from the spec: the rectangular structuring element of a
given radius, all offsets with absolute value at most the radius in
both coordinates. -/
def seRect (radius : Nat) : List (Int × Int) :=
  (intRange radius).flatMap (fun dy => (intRange radius).map (fun dx => (dy, dx)))

/-- Modelled from the spec: build the structuring element for a shape
and radius; the octagonal shape cuts the corners of the rectangle with
the hybrid bound on the sum of absolute offsets. -/
def seBuild : Shape → Nat → List (Int × Int)
  | Shape.rectangular, radius => seRect radius
  | Shape.octagonal, radius =>
      (seRect radius).filter
        (fun o => decide (o.1.natAbs + o.2.natAbs ≤ radius + radius / 2))

/-- Modelled from the spec: the Window, the sequence of pixel values at
center plus each offset, with border-policy substitution. -/
def windowVals (img : Image) (se : List (Int × Int)) (r c : Nat) : List ℚ :=
  se.map (fun o => borderClamp img ((r : Int) + o.1) ((c : Int) + o.2))

/-- Modelled from the spec: the min reducer (erosion primitive). -/
def reduceMin : List ℚ → ℚ
  | [] => 0
  | v :: vs => vs.foldl min v

/-- Modelled from the spec: the max reducer (dilation primitive). -/
def reduceMax : List ℚ → ℚ
  | [] => 0
  | v :: vs => vs.foldl max v

/-- Modelled from the spec: the k-th order statistic reducer, the k-th
smallest value of the window sorted ascending. -/
def rankReduce (k : Nat) (l : List ℚ) : ℚ :=
  (l.insertionSort (· ≤ ·)).getD (k - 1) 0

/-- Modelled from the spec: the mean reducer, the arithmetic average of
the window values. -/
def meanReduce (l : List ℚ) : ℚ :=
  l.sum / (l.length : ℚ)

/-- Modelled from the spec: erosion with a given shape and radius, one
reducer pass with the min reducer. -/
def erodeWith (sh : Shape) (radius : Nat) (img : Image) : Image :=
  ⟨img.rows, img.cols, fun r c => reduceMin (windowVals img (seBuild sh radius) r c)⟩

/-- Modelled from the spec: dilation with a given shape and radius, one
reducer pass with the max reducer. -/
def dilateWith (sh : Shape) (radius : Nat) (img : Image) : Image :=
  ⟨img.rows, img.cols, fun r c => reduceMax (windowVals img (seBuild sh radius) r c)⟩

/-- Modelled from the spec: the rank filter over the fixed 9-cell
3-by-3 rectangular window. -/
def rankFilter (img : Image) (k : Nat) : Image :=
  ⟨img.rows, img.cols, fun r c => rankReduce k (windowVals img (seBuild Shape.rectangular 1) r c)⟩

/-- Modelled from the spec: the mean filter over the fixed 3-by-3
rectangular window. -/
def meanFilter (img : Image) : Image :=
  ⟨img.rows, img.cols, fun r c => meanReduce (windowVals img (seBuild Shape.rectangular 1) r c)⟩

/-- Modelled from the spec: pixelwise inversion of a Bilevel image,
swapping 0 and 1. -/
def invert (img : Image) : Image :=
  ⟨img.rows, img.cols, fun r c => 1 - img.px r c⟩

/-- Modelled from the spec: one pass of the primitive chosen by the
direction argument of erode_dilate, at radius 1 with the given shape. -/
def onePass (d : Direction) (sh : Shape) (img : Image) : Image :=
  match d with
  | Direction.erode => erodeWith sh 1 img
  | Direction.dilate => dilateWith sh 1 img

/-- Modelled from the spec: the erode driver; validates the pixel type
against the allow-list declared in morphology.py, then runs one min
pass over the 3-by-3 rectangular window. -/
def erode_apply (t : PixelType) (img : Image) : Except GErr Image :=
  if t ∈ erode_self_type then Except.ok (erodeWith Shape.rectangular 1 img)
  else Except.error GErr.unsupportedPixelType

/-- Modelled from the spec: the dilate driver. -/
def dilate_apply (t : PixelType) (img : Image) : Except GErr Image :=
  if t ∈ dilate_self_type then Except.ok (dilateWith Shape.rectangular 1 img)
  else Except.error GErr.unsupportedPixelType

/-- Modelled from the spec: the erode_dilate driver; validates the
pixel type, then the count against the declared range, then iterates
the chosen primitive count times. -/
def erode_dilate_apply (t : PixelType) (img : Image) (count : Int)
    (d : Direction) (sh : Shape) : Except GErr Image :=
  if t ∈ erode_dilate_self_type then
    if erode_dilate_count_range.1 ≤ count ∧ count ≤ erode_dilate_count_range.2 then
      Except.ok ((onePass d sh)^[count.toNat] img)
    else Except.error GErr.invalidArgument
  else Except.error GErr.unsupportedPixelType

/-- Modelled from the spec: erode_dilate invoked without an explicit
count, which the declaration in morphology.py defaults to 1. -/
def erode_dilate_apply_default (t : PixelType) (img : Image)
    (d : Direction) (sh : Shape) : Except GErr Image :=
  erode_dilate_apply t img erode_dilate_count_default d sh

/-- Modelled from the spec: the rank driver; validates the pixel type,
then the rank against the declared range (1, 9), then runs the rank
filter. -/
def rank_apply (t : PixelType) (img : Image) (k : Int) : Except GErr Image :=
  if t ∈ rank_self_type then
    if rank_range.1 ≤ k ∧ k ≤ rank_range.2 then
      Except.ok (rankFilter img k.toNat)
    else Except.error GErr.invalidArgument
  else Except.error GErr.unsupportedPixelType

/-- Modelled from the spec: the mean driver. -/
def mean_apply (t : PixelType) (img : Image) : Except GErr Image :=
  if t ∈ mean_self_type then Except.ok (meanFilter img)
  else Except.error GErr.unsupportedPixelType

/-- Numarray typecodes, from numarray_io.py. -/
inductive Typecode
  | uint8
  | uint16
  | uint32
  | float64
  | complex64
deriving DecidableEq, Repr

/-- The pixel-type-to-typecode table of numarray_io.py (_typecodes):
RGB and GREYSCALE both map to UInt8. -/
def typecodes : PixelType → Typecode
  | PixelType.rgb => Typecode.uint8
  | PixelType.greyscale => Typecode.uint8
  | PixelType.grey16 => Typecode.uint32
  | PixelType.onebit => Typecode.uint16
  | PixelType.float => Typecode.float64
  | PixelType.complex => Typecode.complex64

/-- The typecode-to-pixel-type table of numarray_io.py
(_inverse_typecodes): UInt8 maps back to GREYSCALE. -/
def inverse_typecodes : Typecode → PixelType
  | Typecode.uint8 => PixelType.greyscale
  | Typecode.uint32 => PixelType.grey16
  | Typecode.uint16 => PixelType.onebit
  | Typecode.float64 => PixelType.float
  | Typecode.complex64 => PixelType.complex

/-- A concrete 2-by-2 image with every pixel equal to 1. -/
def img0 : Image := ⟨2, 2, fun _ _ => 1⟩

/-- A driver result preserves dimensions when any successfully produced
output image has the rows and cols of the input image. -/
def dimsPreserved (res : Except GErr Image) (img : Image) : Prop :=
  ∀ out, res = Except.ok out → out.rows = img.rows ∧ out.cols = img.cols

/-- Membership characterization of the window axis. -/
lemma mem_intRange (radius : Nat) (x : Int) :
    x ∈ intRange radius ↔ -(radius : Int) ≤ x ∧ x ≤ radius := by
  unfold intRange
  rw [List.mem_map]
  constructor
  · rintro ⟨i, hi, rfl⟩
    rw [List.mem_range] at hi
    omega
  · intro h
    refine ⟨(x + radius).toNat, ?_, ?_⟩
    · rw [List.mem_range]; omega
    · omega

/-- Membership characterization of the rectangular structuring
element. -/
lemma mem_seRect (radius : Nat) (p : Int × Int) :
    p ∈ seRect radius ↔
      -(radius : Int) ≤ p.1 ∧ p.1 ≤ radius ∧ -(radius : Int) ≤ p.2 ∧ p.2 ≤ radius := by
  unfold seRect
  rw [List.mem_flatMap]
  constructor
  · rintro ⟨dy, hdy, hp⟩
    rw [List.mem_map] at hp
    obtain ⟨dx, hdx, hEq⟩ := hp
    subst hEq
    rw [mem_intRange] at hdy hdx
    dsimp only
    exact ⟨hdy.1, hdy.2, hdx.1, hdx.2⟩
  · intro h
    refine ⟨p.1, ?_, ?_⟩
    · rw [mem_intRange]; exact ⟨h.1, h.2.1⟩
    · rw [List.mem_map]
      refine ⟨p.2, ?_, ?_⟩
      · rw [mem_intRange]; exact ⟨h.2.2.1, h.2.2.2⟩
      · rfl

/-- The center offset belongs to every structuring element. -/
lemma center_mem_seBuild (sh : Shape) (radius : Nat) :
    ((0, 0) : Int × Int) ∈ seBuild sh radius := by
  cases sh with
  | rectangular =>
      simp only [seBuild]
      exact (mem_seRect radius (0, 0)).mpr (by dsimp only; omega)
  | octagonal =>
      simp only [seBuild]
      refine List.mem_filter.mpr ⟨(mem_seRect radius (0, 0)).mpr (by dsimp only; omega), ?_⟩
      simp

/-- Every structuring element is symmetric under 180-degree rotation. -/
lemma seBuild_symm (sh : Shape) (radius : Nat) (o : Int × Int)
    (ho : o ∈ seBuild sh radius) : (-o.1, -o.2) ∈ seBuild sh radius := by
  cases sh with
  | rectangular =>
      simp only [seBuild] at ho ⊢
      rw [mem_seRect] at ho ⊢
      dsimp only at ho ⊢
      omega
  | octagonal =>
      simp only [seBuild] at ho ⊢
      rcases List.mem_filter.mp ho with ⟨hrect, hcond⟩
      refine List.mem_filter.mpr ⟨?_, ?_⟩
      · rw [mem_seRect] at hrect ⊢
        dsimp only at hrect ⊢
        omega
      · simpa [Int.natAbs_neg] using hcond

/-- The clamped coordinate is in range for a nonempty axis. -/
lemma clampIdx_lt (n : Nat) (i : Int) (h : 0 < n) : clampIdx n i < n := by
  unfold clampIdx
  omega

/-- Clamping an in-range coordinate returns it unchanged. -/
lemma clampIdx_self (n r : Nat) (h : r < n) : clampIdx n (r : Int) = r := by
  unfold clampIdx
  omega

/-- The left fold of min over a list is a member of the list together
with its initial value. -/
lemma foldl_min_mem (vs : List ℚ) : ∀ v : ℚ, vs.foldl min v ∈ v :: vs := by
  induction vs with
  | nil => intro v; simp
  | cons x xs ih =>
      intro v
      simp only [List.foldl_cons]
      rcases List.mem_cons.mp (ih (min v x)) with h1 | h1
      · rw [h1]
        rcases min_choice v x with hm | hm <;> rw [hm]
        · exact List.mem_cons_self _ _
        · exact List.mem_cons_of_mem _ (List.mem_cons_self _ _)
      · exact List.mem_cons_of_mem _ (List.mem_cons_of_mem _ h1)

/-- The left fold of min is at most its initial value. -/
lemma foldl_min_le_init (vs : List ℚ) : ∀ v : ℚ, vs.foldl min v ≤ v := by
  induction vs with
  | nil => intro v; exact le_refl v
  | cons x xs ih =>
      intro v
      simp only [List.foldl_cons]
      exact le_trans (ih (min v x)) (min_le_left _ _)

/-- The left fold of min is a lower bound of all list members. -/
lemma foldl_min_le_mem (vs : List ℚ) :
    ∀ v y, y ∈ vs → vs.foldl min v ≤ y := by
  induction vs with
  | nil => intro v y hy; cases hy
  | cons x xs ih =>
      intro v y hy
      simp only [List.foldl_cons]
      rcases List.mem_cons.mp hy with h | h
      · rw [h]
        exact le_trans (foldl_min_le_init xs (min v x)) (min_le_right _ _)
      · exact ih (min v x) y h

/-- The left fold of max over a list is a member of the list together
with its initial value. -/
lemma foldl_max_mem (vs : List ℚ) : ∀ v : ℚ, vs.foldl max v ∈ v :: vs := by
  induction vs with
  | nil => intro v; simp
  | cons x xs ih =>
      intro v
      simp only [List.foldl_cons]
      rcases List.mem_cons.mp (ih (max v x)) with h1 | h1
      · rw [h1]
        rcases max_choice v x with hm | hm <;> rw [hm]
        · exact List.mem_cons_self _ _
        · exact List.mem_cons_of_mem _ (List.mem_cons_self _ _)
      · exact List.mem_cons_of_mem _ (List.mem_cons_of_mem _ h1)

/-- The left fold of max is at least its initial value. -/
lemma le_foldl_max_init (vs : List ℚ) : ∀ v : ℚ, v ≤ vs.foldl max v := by
  induction vs with
  | nil => intro v; exact le_refl v
  | cons x xs ih =>
      intro v
      simp only [List.foldl_cons]
      exact le_trans (le_max_left _ _) (ih (max v x))

/-- The left fold of max is an upper bound of all list members. -/
lemma le_foldl_max_mem (vs : List ℚ) :
    ∀ v y, y ∈ vs → y ≤ vs.foldl max v := by
  induction vs with
  | nil => intro v y hy; cases hy
  | cons x xs ih =>
      intro v y hy
      simp only [List.foldl_cons]
      rcases List.mem_cons.mp hy with h | h
      · rw [h]
        exact le_trans (le_max_right _ _) (le_foldl_max_init xs (max v x))
      · exact ih (max v x) y h

/-- The min reducer is a lower bound of every window value. -/
lemma reduceMin_le (l : List ℚ) (y : ℚ) (hy : y ∈ l) : reduceMin l ≤ y := by
  cases l with
  | nil => cases hy
  | cons v vs =>
      rcases List.mem_cons.mp hy with h | h
      · rw [h]; exact foldl_min_le_init vs v
      · exact foldl_min_le_mem vs v y h

/-- The min reducer of a nonempty window is one of its values. -/
lemma reduceMin_mem (l : List ℚ) (h : l ≠ []) : reduceMin l ∈ l := by
  cases l with
  | nil => exact absurd rfl h
  | cons v vs => exact foldl_min_mem vs v

/-- The max reducer is an upper bound of every window value. -/
lemma le_reduceMax (l : List ℚ) (y : ℚ) (hy : y ∈ l) : y ≤ reduceMax l := by
  cases l with
  | nil => cases hy
  | cons v vs =>
      rcases List.mem_cons.mp hy with h | h
      · rw [h]; exact le_foldl_max_init vs v
      · exact le_foldl_max_mem vs v y h

/-- The max reducer of a nonempty window is one of its values. -/
lemma reduceMax_mem (l : List ℚ) (h : l ≠ []) : reduceMax l ∈ l := by
  cases l with
  | nil => exact absurd rfl h
  | cons v vs => exact foldl_max_mem vs v

/-- The window has one value per structuring-element offset. -/
lemma windowVals_length (img : Image) (se : List (Int × Int)) (r c : Nat) :
    (windowVals img se r c).length = se.length := by
  unfold windowVals
  exact List.length_map _ _

/-- The window over a built structuring element is never empty. -/
lemma windowVals_ne_nil (img : Image) (sh : Shape) (radius : Nat) (r c : Nat) :
    windowVals img (seBuild sh radius) r c ≠ [] := by
  intro h
  have h0 : (windowVals img (seBuild sh radius) r c).length = 0 := by rw [h]; rfl
  rw [windowVals_length] at h0
  exact List.ne_nil_of_mem (center_mem_seBuild sh radius) (List.length_eq_zero.mp h0)

/-- At an in-range coordinate the window contains the center pixel
value itself. -/
lemma self_mem_windowVals (img : Image) (se : List (Int × Int))
    (hc : ((0, 0) : Int × Int) ∈ se) (r c : Nat)
    (hr : r < img.rows) (hcc : c < img.cols) :
    img.px r c ∈ windowVals img se r c := by
  unfold windowVals
  rw [List.mem_map]
  refine ⟨(0, 0), hc, ?_⟩
  show borderClamp img ((r : Int) + 0) ((c : Int) + 0) = img.px r c
  rw [add_zero, add_zero]
  unfold borderClamp
  rw [clampIdx_self _ _ hr, clampIdx_self _ _ hcc]

/-- Every window value is a pixel of the image read at clamped
coordinates. -/
lemma windowVals_forall (img : Image) (se : List (Int × Int)) (r c : Nat)
    (P : ℚ → Prop) (h : ∀ a b : Nat, a < img.rows → b < img.cols → P (img.px a b))
    (hr : 0 < img.rows) (hc : 0 < img.cols) :
    ∀ x ∈ windowVals img se r c, P x := by
  intro x hx
  unfold windowVals at hx
  rw [List.mem_map] at hx
  obtain ⟨o, _, hEq⟩ := hx
  rw [← hEq]
  unfold borderClamp
  exact h _ _ (clampIdx_lt _ _ hr) (clampIdx_lt _ _ hc)

/-- Inverting the image inverts every window value. -/
lemma windowVals_invert (img : Image) (se : List (Int × Int)) (r c : Nat) :
    windowVals (invert img) se r c =
      (windowVals img se r c).map (fun v => 1 - v) := by
  unfold windowVals
  rw [List.map_map]
  rfl

/-- One minus the min of two rationals is the max of one minus each. -/
lemma one_sub_min (a b : ℚ) : 1 - min a b = max (1 - a) (1 - b) := by
  rcases le_total a b with h | h
  · rw [min_eq_left h, max_eq_left (by linarith)]
  · rw [min_eq_right h, max_eq_right (by linarith)]

/-- Folding max over pointwise inverted values inverts the min fold. -/
lemma foldl_max_map_one_sub (vs : List ℚ) :
    ∀ v : ℚ, (vs.map (fun x => 1 - x)).foldl max (1 - v) = 1 - vs.foldl min v := by
  induction vs with
  | nil => intro v; rfl
  | cons x xs ih =>
      intro v
      simp only [List.map_cons, List.foldl_cons]
      rw [← one_sub_min, ih]

/-- The max reducer of the inverted window is one minus the min
reducer of the window, for nonempty windows. -/
lemma reduceMax_map_one_sub (l : List ℚ) (h : l ≠ []) :
    reduceMax (l.map (fun v => 1 - v)) = 1 - reduceMin l := by
  cases l with
  | nil => exact absurd rfl h
  | cons v vs =>
      show (vs.map (fun x => 1 - x)).foldl max (1 - v) = 1 - vs.foldl min v
      exact foldl_max_map_one_sub vs v

/-- The first entry of a sorted list is a member and a lower bound. -/
lemma sorted_getD_zero (s : List ℚ) (hs : List.Sorted (· ≤ ·) s) (hne : s ≠ []) :
    s.getD 0 0 ∈ s ∧ ∀ y ∈ s, s.getD 0 0 ≤ y := by
  cases s with
  | nil => exact absurd rfl hne
  | cons a t =>
      simp only [List.getD_cons_zero]
      refine ⟨List.mem_cons_self _ _, ?_⟩
      intro y hy
      rcases List.mem_cons.mp hy with h | h
      · rw [h]
      · exact List.rel_of_sorted_cons hs y h

/-- The last entry of a sorted list is a member and an upper bound. -/
lemma sorted_getD_last (s : List ℚ) (hs : List.Sorted (· ≤ ·) s) (hne : s ≠ []) :
    s.getD (s.length - 1) 0 ∈ s ∧ ∀ y ∈ s, y ≤ s.getD (s.length - 1) 0 := by
  induction s with
  | nil => exact absurd rfl hne
  | cons a t ih =>
      cases t with
      | nil => simp
      | cons b u =>
          have hs' : List.Sorted (· ≤ ·) (b :: u) := hs.of_cons
          obtain ⟨hmem, hub⟩ := ih hs' (List.cons_ne_nil _ _)
          have hidx : (a :: b :: u : List ℚ).getD ((a :: b :: u).length - 1) 0 =
              (b :: u : List ℚ).getD ((b :: u).length - 1) 0 := by
            have h1 : (a :: b :: u : List ℚ).length - 1 = ((b :: u : List ℚ).length - 1) + 1 := by
              simp
            rw [h1, List.getD_cons_succ]
          rw [hidx]
          refine ⟨List.mem_cons_of_mem _ hmem, ?_⟩
          intro y hy
          rcases List.mem_cons.mp hy with h | h
          · rw [h]
            exact List.rel_of_sorted_cons hs _ hmem
          · exact hub y h

/-- The rank-1 order statistic of a nonempty window is its minimum. -/
lemma rankReduce_one (l : List ℚ) (h : l ≠ []) : rankReduce 1 l = reduceMin l := by
  unfold rankReduce
  have hp : List.Perm (l.insertionSort (· ≤ ·)) l := List.perm_insertionSort _ l
  have hs : List.Sorted (· ≤ ·) (l.insertionSort (· ≤ ·)) :=
    List.sorted_insertionSort _ l
  have hne : l.insertionSort (· ≤ ·) ≠ [] := by
    intro h0
    have h1 : (l.insertionSort (· ≤ ·)).length = 0 := by rw [h0]; rfl
    rw [List.length_insertionSort] at h1
    exact h (List.length_eq_zero.mp h1)
  obtain ⟨hmem, hlb⟩ := sorted_getD_zero _ hs hne
  exact le_antisymm (hlb _ (hp.mem_iff.mpr (reduceMin_mem l h)))
    (reduceMin_le l _ (hp.mem_iff.mp hmem))

/-- The order statistic at the window size of a nonempty window is its
maximum. -/
lemma rankReduce_len (l : List ℚ) (h : l ≠ []) :
    rankReduce l.length l = reduceMax l := by
  unfold rankReduce
  have hp : List.Perm (l.insertionSort (· ≤ ·)) l := List.perm_insertionSort _ l
  have hs : List.Sorted (· ≤ ·) (l.insertionSort (· ≤ ·)) :=
    List.sorted_insertionSort _ l
  have hne : l.insertionSort (· ≤ ·) ≠ [] := by
    intro h0
    have h1 : (l.insertionSort (· ≤ ·)).length = 0 := by rw [h0]; rfl
    rw [List.length_insertionSort] at h1
    exact h (List.length_eq_zero.mp h1)
  have hlen : (l.insertionSort (· ≤ ·)).length = l.length :=
    List.length_insertionSort _ l
  rw [← hlen]
  obtain ⟨hmem, hub⟩ := sorted_getD_last _ hs hne
  exact le_antisymm (le_reduceMax l _ (hp.mem_iff.mp hmem))
    (hub _ (hp.mem_iff.mpr (reduceMax_mem l h)))

/-- The sum of a list of equal values is the length times the value. -/
lemma sum_const_list (l : List ℚ) (c : ℚ) (h : ∀ x ∈ l, x = c) :
    l.sum = l.length * c := by
  induction l with
  | nil => simp
  | cons x xs ih =>
      have hx : x = c := h x (List.mem_cons_self _ _)
      have ih' := ih (fun y hy => h y (List.mem_cons_of_mem _ hy))
      rw [List.sum_cons, hx, ih', List.length_cons]
      push_cast
      ring

/-- The mean reducer of a nonempty constant window is the constant. -/
lemma meanReduce_const (l : List ℚ) (c : ℚ) (h : ∀ x ∈ l, x = c)
    (hne : l ≠ []) : meanReduce l = c := by
  unfold meanReduce
  have hl : (l.length : ℚ) ≠ 0 := by
    have h0 : l.length ≠ 0 := fun h0 => hne (List.length_eq_zero.mp h0)
    exact_mod_cast h0
  rw [sum_const_list l c h, mul_comm, mul_div_assoc, div_self hl, mul_one]

/-- One erode_dilate pass preserves the row count. -/
lemma onePass_rows (d : Direction) (sh : Shape) (img : Image) :
    (onePass d sh img).rows = img.rows := by
  cases d <;> rfl

/-- One erode_dilate pass preserves the column count. -/
lemma onePass_cols (d : Direction) (sh : Shape) (img : Image) :
    (onePass d sh img).cols = img.cols := by
  cases d <;> rfl

/-- Iterating erode_dilate passes preserves the row count. -/
lemma iterate_onePass_rows (d : Direction) (sh : Shape) :
    ∀ (n : Nat) (img : Image), ((onePass d sh)^[n] img).rows = img.rows := by
  intro n
  induction n with
  | zero => intro img; rfl
  | succ m ih =>
      intro img
      rw [Function.iterate_succ_apply, ih (onePass d sh img), onePass_rows]

/-- Iterating erode_dilate passes preserves the column count. -/
lemma iterate_onePass_cols (d : Direction) (sh : Shape) :
    ∀ (n : Nat) (img : Image), ((onePass d sh)^[n] img).cols = img.cols := by
  intro n
  induction n with
  | zero => intro img; rfl
  | succ m ih =>
      intro img
      rw [Function.iterate_succ_apply, ih (onePass d sh img), onePass_cols]

/-- Pointwise duality of the modelled erosion and dilation through
inversion, for every shape and radius. -/
lemma morph_duality (sh : Shape) (radius : Nat) (img : Image) (r c : Nat) :
    (invert (dilateWith sh radius (invert img))).px r c =
      (erodeWith sh radius img).px r c := by
  show 1 - reduceMax (windowVals (invert img) (seBuild sh radius) r c) =
    reduceMin (windowVals img (seBuild sh radius) r c)
  rw [windowVals_invert,
    reduceMax_map_one_sub _ (windowVals_ne_nil img sh radius r c)]
  ring

/-- C1 counterexample: morphology.py declares ONEBIT among the allowed
pixel types of rank, so calling rank on a Bilevel (ONEBIT) image with a
valid rank argument succeeds instead of failing with
UnsupportedPixelType. -/
theorem rank_pixel_types_counterexample :
    rank_apply PixelType.onebit img0 5 = Except.ok (rankFilter img0 5) ∧
    rank_apply PixelType.onebit img0 5 ≠ Except.error GErr.unsupportedPixelType := by
  refine ⟨rfl, ?_⟩
  intro h
  exact Except.noConfusion h

/-- C1 (amended): rank validates the pixel type against the allow-list
declared in the source, which is ONEBIT, GREYSCALE and FLOAT; with a
valid rank argument the call proceeds for a type in the list, and for
a type outside the list it fails with UnsupportedPixelType before any
pixel work. -/
theorem rank_pixel_types_amended (t : PixelType) (img : Image) (k : Int)
    (hk : 1 ≤ k ∧ k ≤ 9) :
    (t ∈ rank_self_type → rank_apply t img k = Except.ok (rankFilter img k.toNat)) ∧
    (t ∉ rank_self_type → rank_apply t img k = Except.error GErr.unsupportedPixelType) := by
  constructor
  · intro ht
    unfold rank_apply
    have hk2 : rank_range.1 ≤ k ∧ k ≤ rank_range.2 := hk
    rw [if_pos ht, if_pos hk2]
  · intro ht
    unfold rank_apply
    rw [if_neg ht]

/-- C1 witness: instantiation of the amended claim at a Greyscale image
with rank 3. -/
theorem rank_pixel_types_witness :
    (PixelType.greyscale ∈ rank_self_type →
      rank_apply PixelType.greyscale img0 3 = Except.ok (rankFilter img0 3)) ∧
    (PixelType.greyscale ∉ rank_self_type →
      rank_apply PixelType.greyscale img0 3 = Except.error GErr.unsupportedPixelType) :=
  rank_pixel_types_amended PixelType.greyscale img0 3 (by decide)

/-- C2: for supported pixel types, rank fails with InvalidArgument
exactly when its rank argument lies outside 1..9, and erode_dilate
fails with InvalidArgument exactly when its count lies outside 0..10;
in the failing cases the result is the bare error, so no partial
output image exists. -/
theorem range_validation (t u : PixelType) (img1 img2 : Image) (k count : Int)
    (d : Direction) (sh : Shape)
    (ht : t ∈ rank_self_type) (hu : u ∈ erode_dilate_self_type) :
    (rank_apply t img1 k = Except.error GErr.invalidArgument ↔ (k < 1 ∨ 9 < k)) ∧
    (erode_dilate_apply u img2 count d sh = Except.error GErr.invalidArgument ↔
      (count < 0 ∨ 10 < count)) := by
  constructor
  · unfold rank_apply
    rw [if_pos ht]
    by_cases hk : rank_range.1 ≤ k ∧ k ≤ rank_range.2
    · rw [if_pos hk]
      constructor
      · intro h
        exact Except.noConfusion h
      · intro h
        exfalso
        have hk2 : (1 : Int) ≤ k ∧ k ≤ 9 := hk
        omega
    · rw [if_neg hk]
      constructor
      · intro _
        have hk2 : ¬((1 : Int) ≤ k ∧ k ≤ 9) := hk
        omega
      · intro _
        rfl
  · unfold erode_dilate_apply
    rw [if_pos hu]
    by_cases hc : erode_dilate_count_range.1 ≤ count ∧ count ≤ erode_dilate_count_range.2
    · rw [if_pos hc]
      constructor
      · intro h
        exact Except.noConfusion h
      · intro h
        exfalso
        have hc2 : (0 : Int) ≤ count ∧ count ≤ 10 := hc
        omega
    · rw [if_neg hc]
      constructor
      · intro _
        have hc2 : ¬((0 : Int) ≤ count ∧ count ≤ 10) := hc
        omega
      · intro _
        rfl

/-- C2 witness: rank with rank 0 and erode_dilate with count 11 on a
Greyscale image both fail with InvalidArgument. -/
theorem range_validation_witness :
    (rank_apply PixelType.greyscale img0 0 = Except.error GErr.invalidArgument ↔
      ((0 : Int) < 1 ∨ (9 : Int) < 0)) ∧
    (erode_dilate_apply PixelType.greyscale img0 11 Direction.erode Shape.rectangular =
        Except.error GErr.invalidArgument ↔ ((11 : Int) < 0 ∨ (10 : Int) < 11)) :=
  range_validation PixelType.greyscale PixelType.greyscale img0 img0 0 11
    Direction.erode Shape.rectangular (by decide) (by decide)

/-- C3: erode_dilate with count zero returns the input image itself,
unchanged, for every supported pixel type, direction and shape. -/
theorem erode_dilate_zero_count (t : PixelType) (img : Image)
    (d : Direction) (sh : Shape) (ht : t ∈ erode_dilate_self_type) :
    erode_dilate_apply t img 0 d sh = Except.ok img := by
  unfold erode_dilate_apply
  rw [if_pos ht, if_pos (by decide)]
  rfl

/-- C3 witness: instantiation at a Greyscale image. -/
theorem erode_dilate_zero_count_witness :
    erode_dilate_apply PixelType.greyscale img0 0 Direction.erode Shape.octagonal =
      Except.ok img0 :=
  erode_dilate_zero_count PixelType.greyscale img0 Direction.erode Shape.octagonal
    (by decide)

/-- C4: for every Bilevel image, shape and radius, the built
structuring element is symmetric under 180-degree rotation and erosion
equals inversion of dilation of the inversion, pixelwise. -/
theorem erode_dilate_duality (sh : Shape) (radius : Nat) (img : Image)
    (_hb : IsBilevel img) :
    (∀ o ∈ seBuild sh radius, (-o.1, -o.2) ∈ seBuild sh radius) ∧
    PixEq (erodeWith sh radius img) (invert (dilateWith sh radius (invert img))) := by
  refine ⟨fun o ho => seBuild_symm sh radius o ho, rfl, rfl, ?_⟩
  intro r _ c _
  exact (morph_duality sh radius img r c).symm

/-- C4 witness: instantiation at an octagonal radius-2 element and the
constant all-ones Bilevel image. -/
theorem erode_dilate_duality_witness :
    (∀ o ∈ seBuild Shape.octagonal 2, (-o.1, -o.2) ∈ seBuild Shape.octagonal 2) ∧
    PixEq (erodeWith Shape.octagonal 2 img0)
      (invert (dilateWith Shape.octagonal 2 (invert img0))) :=
  erode_dilate_duality Shape.octagonal 2 img0 (fun _ _ _ _ => Or.inr rfl)

/-- C5: for Greyscale and Float images the erode driver output is
pixelwise at most the input and the dilate driver output is pixelwise
at least the input, since the structuring element contains the center
offset. -/
theorem erode_dilate_monotone (t : PixelType) (img : Image)
    (h : t = PixelType.greyscale ∨ t = PixelType.float) :
    erode_apply t img = Except.ok (erodeWith Shape.rectangular 1 img) ∧
    dilate_apply t img = Except.ok (dilateWith Shape.rectangular 1 img) ∧
    ∀ r, r < img.rows → ∀ c, c < img.cols →
      (erodeWith Shape.rectangular 1 img).px r c ≤ img.px r c ∧
      img.px r c ≤ (dilateWith Shape.rectangular 1 img).px r c := by
  have ht1 : t ∈ erode_self_type := by rcases h with rfl | rfl <;> decide
  have ht2 : t ∈ dilate_self_type := by rcases h with rfl | rfl <;> decide
  refine ⟨?_, ?_, ?_⟩
  · unfold erode_apply
    rw [if_pos ht1]
  · unfold dilate_apply
    rw [if_pos ht2]
  · intro r hr c hc
    have hmem := self_mem_windowVals img (seBuild Shape.rectangular 1)
      (center_mem_seBuild Shape.rectangular 1) r c hr hc
    exact ⟨reduceMin_le _ _ hmem, le_reduceMax _ _ hmem⟩

/-- C5 witness: instantiation at a Float image. -/
theorem erode_dilate_monotone_witness :
    erode_apply PixelType.float img0 = Except.ok (erodeWith Shape.rectangular 1 img0) ∧
    dilate_apply PixelType.float img0 = Except.ok (dilateWith Shape.rectangular 1 img0) ∧
    ∀ r, r < img0.rows → ∀ c, c < img0.cols →
      (erodeWith Shape.rectangular 1 img0).px r c ≤ img0.px r c ∧
      img0.px r c ≤ (dilateWith Shape.rectangular 1 img0).px r c :=
  erode_dilate_monotone PixelType.float img0 (Or.inr rfl)

set_option maxHeartbeats 2000000 in
/-- C6: with the fixed 9-cell 3-by-3 window, rank 1 coincides with
erode and rank 9 coincides with dilate, pixelwise, on Greyscale and
Float images. -/
theorem rank_endpoints (t : PixelType) (img : Image)
    (h : t = PixelType.greyscale ∨ t = PixelType.float) :
    rank_apply t img 1 = Except.ok (rankFilter img 1) ∧
    rank_apply t img 9 = Except.ok (rankFilter img 9) ∧
    PixEq (rankFilter img 1) (erodeWith Shape.rectangular 1 img) ∧
    PixEq (rankFilter img 9) (dilateWith Shape.rectangular 1 img) := by
  have ht : t ∈ rank_self_type := by rcases h with rfl | rfl <;> decide
  refine ⟨?_, ?_, ⟨rfl, rfl, ?_⟩, ⟨rfl, rfl, ?_⟩⟩
  · unfold rank_apply
    rw [if_pos ht, if_pos (by decide)]
    rfl
  · unfold rank_apply
    rw [if_pos ht, if_pos (by decide)]
    rfl
  · intro r _ c _
    exact rankReduce_one _ (windowVals_ne_nil img Shape.rectangular 1 r c)
  · intro r _ c _
    have hlen : (windowVals img (seBuild Shape.rectangular 1) r c).length = 9 := by
      rw [windowVals_length]
      rfl
    show rankReduce 9 (windowVals img (seBuild Shape.rectangular 1) r c) =
      reduceMax (windowVals img (seBuild Shape.rectangular 1) r c)
    rw [← hlen]
    exact rankReduce_len _ (windowVals_ne_nil img Shape.rectangular 1 r c)

/-- C6 witness: instantiation at a Greyscale image. -/
theorem rank_endpoints_witness :
    rank_apply PixelType.greyscale img0 1 = Except.ok (rankFilter img0 1) ∧
    rank_apply PixelType.greyscale img0 9 = Except.ok (rankFilter img0 9) ∧
    PixEq (rankFilter img0 1) (erodeWith Shape.rectangular 1 img0) ∧
    PixEq (rankFilter img0 9) (dilateWith Shape.rectangular 1 img0) :=
  rank_endpoints PixelType.greyscale img0 (Or.inl rfl)

/-- C7: every successfully produced output image of the five driver
operations has the same rows and cols as the input image; the model is
pure, so the input image itself is never modified. -/
theorem dims_preserved_all_ops (t : PixelType) (img : Image) (count k : Int)
    (d : Direction) (sh : Shape) :
    dimsPreserved (erode_apply t img) img ∧
    dimsPreserved (dilate_apply t img) img ∧
    dimsPreserved (erode_dilate_apply t img count d sh) img ∧
    dimsPreserved (rank_apply t img k) img ∧
    dimsPreserved (mean_apply t img) img := by
  refine ⟨?_, ?_, ?_, ?_, ?_⟩
  · intro out hout
    unfold erode_apply at hout
    by_cases h1 : t ∈ erode_self_type
    · rw [if_pos h1] at hout
      injection hout with h2
      subst h2
      exact ⟨rfl, rfl⟩
    · rw [if_neg h1] at hout
      exact Except.noConfusion hout
  · intro out hout
    unfold dilate_apply at hout
    by_cases h1 : t ∈ dilate_self_type
    · rw [if_pos h1] at hout
      injection hout with h2
      subst h2
      exact ⟨rfl, rfl⟩
    · rw [if_neg h1] at hout
      exact Except.noConfusion hout
  · intro out hout
    unfold erode_dilate_apply at hout
    by_cases h1 : t ∈ erode_dilate_self_type
    · rw [if_pos h1] at hout
      by_cases h2 : erode_dilate_count_range.1 ≤ count ∧ count ≤ erode_dilate_count_range.2
      · rw [if_pos h2] at hout
        injection hout with h3
        subst h3
        exact ⟨iterate_onePass_rows d sh _ img, iterate_onePass_cols d sh _ img⟩
      · rw [if_neg h2] at hout
        exact Except.noConfusion hout
    · rw [if_neg h1] at hout
      exact Except.noConfusion hout
  · intro out hout
    unfold rank_apply at hout
    by_cases h1 : t ∈ rank_self_type
    · rw [if_pos h1] at hout
      by_cases h2 : rank_range.1 ≤ k ∧ k ≤ rank_range.2
      · rw [if_pos h2] at hout
        injection hout with h3
        subst h3
        exact ⟨rfl, rfl⟩
      · rw [if_neg h2] at hout
        exact Except.noConfusion hout
    · rw [if_neg h1] at hout
      exact Except.noConfusion hout
  · intro out hout
    unfold mean_apply at hout
    by_cases h1 : t ∈ mean_self_type
    · rw [if_pos h1] at hout
      injection hout with h2
      subst h2
      exact ⟨rfl, rfl⟩
    · rw [if_neg h1] at hout
      exact Except.noConfusion hout

/-- C7 witness: instantiation at a Greyscale image with count 1 and
rank 1. -/
theorem dims_preserved_all_ops_witness :
    dimsPreserved (erode_apply PixelType.greyscale img0) img0 ∧
    dimsPreserved (dilate_apply PixelType.greyscale img0) img0 ∧
    dimsPreserved (erode_dilate_apply PixelType.greyscale img0 1
      Direction.dilate Shape.rectangular) img0 ∧
    dimsPreserved (rank_apply PixelType.greyscale img0 1) img0 ∧
    dimsPreserved (mean_apply PixelType.greyscale img0) img0 :=
  dims_preserved_all_ops PixelType.greyscale img0 1 1 Direction.dilate Shape.rectangular

/-- C8: the mean filter maps a constant Greyscale or Float image to a
pixelwise equal image: every output pixel is again the constant. -/
theorem mean_constant_image (t : PixelType) (img : Image) (c0 : ℚ)
    (h : t = PixelType.greyscale ∨ t = PixelType.float)
    (hc : ∀ r, r < img.rows → ∀ c, c < img.cols → img.px r c = c0) :
    mean_apply t img = Except.ok (meanFilter img) ∧ PixEq (meanFilter img) img := by
  have ht : t ∈ mean_self_type := by rcases h with rfl | rfl <;> decide
  refine ⟨?_, rfl, rfl, ?_⟩
  · unfold mean_apply
    rw [if_pos ht]
  · intro r hr c hc2
    have hall : ∀ x ∈ windowVals img (seBuild Shape.rectangular 1) r c, x = c0 :=
      windowVals_forall img _ r c (fun x => x = c0)
        (fun a b ha hb => hc a ha b hb)
        (Nat.lt_of_le_of_lt (Nat.zero_le r) hr)
        (Nat.lt_of_le_of_lt (Nat.zero_le c) hc2)
    show meanReduce (windowVals img (seBuild Shape.rectangular 1) r c) = img.px r c
    rw [meanReduce_const _ c0 hall (windowVals_ne_nil img Shape.rectangular 1 r c),
      hc r hr c hc2]

/-- C8 witness: instantiation at the constant all-ones Greyscale
image. -/
theorem mean_constant_image_witness :
    mean_apply PixelType.greyscale img0 = Except.ok (meanFilter img0) ∧
    PixEq (meanFilter img0) img0 :=
  mean_constant_image PixelType.greyscale img0 1 (Or.inl rfl) (fun _ _ _ _ => rfl)

/-- C9 counterexample: the typecode table maps both RGB and GREYSCALE
to UInt8, so the forward mapping is not injective and the round trip
returns GREYSCALE, not RGB, on RGB. -/
theorem typecode_roundtrip_counterexample :
    typecodes PixelType.rgb = typecodes PixelType.greyscale ∧
    PixelType.rgb ≠ PixelType.greyscale ∧
    inverse_typecodes (typecodes PixelType.rgb) ≠ PixelType.rgb := by
  refine ⟨rfl, by decide, by decide⟩

/-- C9 (amended): for every pixel type other than RGB the inverse
typecode table applied to the forward typecode table returns the pixel
type; RGB shares the UInt8 typecode with GREYSCALE and is recovered
from the array shape instead. -/
theorem typecode_roundtrip_amended (t : PixelType) (h : t ≠ PixelType.rgb) :
    inverse_typecodes (typecodes t) = t := by
  cases t <;> first | rfl | exact absurd rfl h

/-- C9 witness: instantiation at ONEBIT. -/
theorem typecode_roundtrip_witness :
    inverse_typecodes (typecodes PixelType.onebit) = PixelType.onebit :=
  typecode_roundtrip_amended PixelType.onebit (by decide)

/-- C10: erode_dilate invoked without an explicit count behaves exactly
like erode_dilate with count 1, which on a supported pixel type is one
pass of the chosen primitive. -/
theorem erode_dilate_default_count (t : PixelType) (img : Image)
    (d : Direction) (sh : Shape) (ht : t ∈ erode_dilate_self_type) :
    erode_dilate_apply_default t img d sh = erode_dilate_apply t img 1 d sh ∧
    erode_dilate_apply_default t img d sh = Except.ok (onePass d sh img) := by
  constructor
  · rfl
  · unfold erode_dilate_apply_default erode_dilate_apply
    rw [if_pos ht, if_pos (by decide)]
    rfl

/-- C10 witness: instantiation at a ONEBIT image with dilate and the
rectangular shape. -/
theorem erode_dilate_default_count_witness :
    erode_dilate_apply_default PixelType.onebit img0 Direction.dilate Shape.rectangular =
      erode_dilate_apply PixelType.onebit img0 1 Direction.dilate Shape.rectangular ∧
    erode_dilate_apply_default PixelType.onebit img0 Direction.dilate Shape.rectangular =
      Except.ok (onePass Direction.dilate Shape.rectangular img0) :=
  erode_dilate_default_count PixelType.onebit img0 Direction.dilate Shape.rectangular
    (by decide)
